import Mathlib

/-!
Shallow embedding of the `materials-investigator` repository:
the investigator loop (`src/investigator/agent.py`), the synthetic
measurement oracle (`src/investigator/tools/synthetic_oracle.py`) and the
sqlite event store (`src/investigator/store.py`).

Modelling conventions:
* Python floats are modelled as rationals (`ℚ`).
* Python dicts are modelled as association lists in insertion order
  (CPython dicts preserve insertion order, which matters for the stable
  top-K sort).
* `random.Random(h)` draw streams are modelled as abstract functions of the
  32-bit seed `h`: the k-th draw of a freshly seeded generator is a pure
  function of `h`, and the oracle consumes draws in a fixed order
  (`random`, `uniform`, `random`, `gauss`).
* Python's builtin `hash` on a `(int, str)` tuple is modelled as an abstract
  function `pyhash : Int → String → Int`; CPython salts string hashing per
  process, so different processes correspond to different `pyhash`
  functions.
* `uuid.uuid4()` identifiers and the run-level candidate generator
  (`Investigator._propose_candidates`, which draws from the run-seeded
  generator) are supplied through the run environment as iteration-indexed
  functions; they are deterministic functions of the run seed.
-/

/-- Per-candidate measurement outcome:
`{"ok": False, "error": e}` or `{"ok": True, "value": v}`
(`MeasurementResult` in the spec; built in
`SyntheticOracle.query_property`). -/
inductive MResult where
  | failure (error : String)
  | success (value : ℚ)
deriving DecidableEq, Repr

/-- `True` exactly when the outcome dict has `"ok": True`. -/
def MResult.ok : MResult → Bool
  | .failure _ => false
  | .success _ => true

/-- The dict returned by `SyntheticOracle.query_property`:
`{"property": prop, "results": {candidate: outcome}}`.
The `results` dict is built in candidate order. -/
structure OracleResp where
  property : String
  results : List (String × MResult)
deriving DecidableEq, Repr

/-- The five step kinds of the loop. -/
inductive StepKind where
  | HYPOTHESIS | DESIGN | EXECUTE | INTERPRET | UPDATE
deriving DecidableEq, Repr

/-- `types.Budget`: `{max_tool_calls, tool_calls_used}`. -/
structure Budget where
  max_tool_calls : Nat
  tool_calls_used : Nat
deriving DecidableEq, Repr

/-- Event payloads, one constructor per step kind, mirroring the dicts the
agent builds (`model_dump()` of the pydantic models, or the literal dicts
for EXECUTE and UPDATE).  Note that the EXECUTE payload stores the whole
oracle response under its `results` key (`agent.py` line 107). -/
inductive Payload where
  | hypothesis (id statement : String) (candidates assumptions : List String)
  | design (id hypothesis_id test_type target_property : String)
      (candidates : List String) (rationale : String)
  | execute (tool property : String) (results : OracleResp)
  | interpret (id hypothesis_id summary : String)
      (updated_beliefs : List (String × ℚ)) (uncertainty_notes : List String)
  | update (status reason : String) (budget : Budget)
deriving DecidableEq, Repr

/-- The `updated_beliefs` dict of an INTERPRET payload (empty for other
kinds). -/
def Payload.updatedBeliefs : Payload → List (String × ℚ)
  | .interpret _ _ _ u _ => u
  | _ => []

/-- The per-candidate results dict inside an EXECUTE payload (empty for
other kinds). -/
def Payload.execResults : Payload → List (String × MResult)
  | .execute _ _ raw => raw.results
  | _ => []

/-- `types.Event` (the timestamp is informational only and omitted). -/
structure Event where
  run_id : String
  step : StepKind
  payload : Payload
deriving DecidableEq, Repr

/-- The `constraints` dict handed to `Investigator.run`; field defaults are
the `constraints.get(key, default)` defaults used in `agent.py`. -/
structure Constraints where
  batch_size : Nat := 12
  stability_min : ℚ := -(6/5)
  bandgap_min : ℚ := 1
  bandgap_max : ℚ := 2
  target_bandgap : ℚ := 3/2
  belief_decay : ℚ := 49/50
deriving DecidableEq, Repr

/-- The in-memory belief state: candidate → (property → value), both dicts
in insertion order. -/
abbrev BeliefRec := List (String × ℚ)

abbrev Beliefs := List (String × BeliefRec)

/-- Dict lookup on a property record (first matching key). -/
def recGet : BeliefRec → String → Option ℚ
  | [], _ => none
  | kv :: rest, k => if kv.1 = k then some kv.2 else recGet rest k

/-- Dict assignment `rec[k] = v`: overwrite in place, else append. -/
def setProp : BeliefRec → String → ℚ → BeliefRec
  | [], k, v => [(k, v)]
  | kv :: rest, k, v =>
      if kv.1 = k then (k, v) :: rest else kv :: setProp rest k v

/-- Dict lookup on the belief state (first matching candidate). -/
def lookupCand : Beliefs → String → Option BeliefRec
  | [], _ => none
  | cr :: rest, c => if cr.1 = c then some cr.2 else lookupCand rest c

/-- `beliefs.setdefault(c, {})[prop] = v`. -/
def beliefSet : Beliefs → String → String → ℚ → Beliefs
  | [], c, p, v => [(c, [(p, v)])]
  | cr :: rest, c, p, v =>
      if cr.1 = c then (c, setProp cr.2 p v) :: rest
      else cr :: beliefSet rest c p v

/-- The stored value of property `p` for candidate `c`. -/
def lookupVal (b : Beliefs) (c p : String) : Option ℚ :=
  match lookupCand b c with
  | some rec => recGet rec p
  | none => none

/-- `agent.py` lines 116–119: merge successful measurements into the belief
state, skipping `ok: false` entries. -/
def mergeResults (beliefs : Beliefs) (results : List (String × MResult))
    (prop : String) : Beliefs :=
  results.foldl
    (fun b cr =>
      match cr.2 with
      | .failure _ => b
      | .success v => beliefSet b cr.1 prop v)
    beliefs

/-- `agent.py` lines 122–125: multiply every stored value by the decay
factor. -/
def decayBeliefs (b : Beliefs) (decay : ℚ) : Beliefs :=
  b.map (fun cr => (cr.1, cr.2.map (fun kv => (kv.1, kv.2 * decay))))

/-- `agent.py` lines 128–133: score every candidate whose record has both
`stability` and `bandgap`, as `stability - |bandgap - target_bandgap|`;
output order is belief-state insertion order. -/
def scoredOf (b : Beliefs) (target : ℚ) : List (String × ℚ) :=
  b.filterMap
    (fun cr =>
      match recGet cr.2 "stability", recGet cr.2 "bandgap" with
      | some s, some bg => some (cr.1, s - |bg - target|)
      | _, _ => none)

/-- Insertion step of the stable descending sort: `x` passes elements with
strictly greater score and lands before the first element with score
`≤ x.2`, so earlier elements with an equal score stay in front. -/
def insertDesc (x : String × ℚ) : List (String × ℚ) → List (String × ℚ)
  | [] => [x]
  | y :: ys => if x.2 < y.2 then y :: insertDesc x ys else x :: y :: ys

/-- Models CPython's stable `sorted(items, key=lambda kv: kv[1],
reverse=True)` (`agent.py` line 139): descending by score, ties keep the
original (belief-insertion) order. -/
def sortDesc (l : List (String × ℚ)) : List (String × ℚ) :=
  l.foldr insertDesc []

/-- `Investigator._meets_constraints` (`agent.py` lines 207–223): scans the
full belief state for any record with both properties inside the bounds. -/
def meetsConstraints (beliefs : Beliefs) (cons : Constraints) : Bool :=
  beliefs.any
    (fun cr =>
      match recGet cr.2 "stability", recGet cr.2 "bandgap" with
      | some s, some bg =>
          cons.stability_min ≤ s ∧ cons.bandgap_min ≤ bg ∧
            bg ≤ cons.bandgap_max
      | _, _ => false)

/-- `agent.py` line 76: alternate the target property by iteration index. -/
def propAt (step : Nat) : String :=
  if step % 2 = 0 then "stability" else "bandgap"

/-! ## Synthetic oracle -/

/-- `SyntheticOracle.__init__` configuration. -/
structure SyntheticOracle where
  seed : Int
  fail_prob : ℚ
  corrupt_prob : ℚ
deriving DecidableEq, Repr

/-- Abstract model of the draw stream of `random.Random(h)`: the oracle
consumes, in this fixed order, `rng.random()` (failure check),
`rng.uniform(-1.0, 1.0)` (base value), `rng.random()` (corruption check)
and `rng.gauss(0.0, 0.75)` (noise); each is a pure function of the seed
`h`. -/
structure Draws where
  r1 : Nat → ℚ
  base : Nat → ℚ
  r2 : Nat → ℚ
  gauss : Nat → ℚ

/-- `SyntheticOracle._rng_for_candidate`:
`hash((self.seed, candidate)) & 0xFFFFFFFF`, where `pyhash` stands for
Python's builtin `hash` on the tuple (salted per process for strings). -/
def rngSeedFor (pyhash : Int → String → Int) (seed : Int) (c : String) :
    Nat :=
  ((pyhash seed c) % (2 ^ 32 : Int)).toNat

/-- Per-candidate body of `SyntheticOracle.query_property`
(lines 55–78). -/
def queryCandidate (O : SyntheticOracle) (D : Draws)
    (pyhash : Int → String → Int) (prop c : String) : MResult :=
  let h := rngSeedFor pyhash O.seed c
  if D.r1 h < O.fail_prob then .failure "synthetic_failure"
  else
    let base := D.base h
    if prop = "stability" then
      let value := base
      let value := if D.r2 h < O.corrupt_prob then value + D.gauss h
        else value
      .success value
    else if prop = "bandgap" then
      let value := |base| * (5 / 2)
      let value := if D.r2 h < O.corrupt_prob then value + D.gauss h
        else value
      .success value
    else .failure ("unknown_property:" ++ prop)

/-- `SyntheticOracle.query_property`: one batched call, one fresh
per-candidate generator each.  Duplicate candidates in the batch map to
identical outcomes, so the association list carries the same information as
the Python dict. -/
def SyntheticOracle.queryProp (O : SyntheticOracle) (D : Draws)
    (pyhash : Int → String → Int) (candidates : List String)
    (prop : String) : OracleResp :=
  ⟨prop, candidates.map (fun c => (c, queryCandidate O D pyhash prop c))⟩

/-! ## The investigator loop -/

/-- Per-run environment: the run identifier and the per-iteration uuid4
identifiers (random, irrelevant to the claims), the candidate generator
(`_propose_candidates` driven by the run-seeded generator, hence a
deterministic function of the iteration index given the seed), and the
measurement source (duck-typed `oracle` argument of `Investigator`). -/
structure RunEnv where
  run_id : String
  hypId : Nat → String
  designId : Nat → String
  interpId : Nat → String
  propose : Nat → List String
  oracle : List String → String → OracleResp

/-- One belief-state iteration of the loop body (`agent.py` lines 115–125):
merge iteration `i`'s successful measurements, then decay. -/
def iterOnce (env : RunEnv) (cons : Constraints) (i : Nat) (b : Beliefs) :
    Beliefs :=
  decayBeliefs
    (mergeResults b (env.oracle (env.propose i) (propAt i)).results
      (propAt i))
    cons.belief_decay

/-- The belief state after `n` loop iterations, starting from state `b` at
absolute iteration index `s` (a run starts from `[]` at index 0). -/
def beliefsFrom (env : RunEnv) (cons : Constraints) (b : Beliefs)
    (s : Nat) : Nat → Beliefs
  | 0 => b
  | n + 1 => iterOnce env cons (s + n) (beliefsFrom env cons b s n)

/-- The HYPOTHESIS event of iteration `step` (`agent.py` lines 52–71). -/
def hypEventAt (env : RunEnv) (step : Nat) : Event :=
  ⟨env.run_id, .HYPOTHESIS,
    .hypothesis (env.hypId step)
      "Some candidates satisfy stability and bandgap constraints."
      (env.propose step)
      ["Synthetic oracle provides noisy but informative measurements."]⟩

/-- The DESIGN event of iteration `step` (`agent.py` lines 76–92). -/
def designEventAt (env : RunEnv) (step : Nat) : Event :=
  ⟨env.run_id, .DESIGN,
    .design (env.designId step) (env.hypId step) "query_property"
      (propAt step) (env.propose step)
      ("Measure " ++ propAt step ++ " to reduce uncertainty.")⟩

/-- The EXECUTE event of iteration `step` (`agent.py` lines 97–110): the
payload stores the whole oracle response under `results`. -/
def execEventAt (env : RunEnv) (step : Nat) : Event :=
  ⟨env.run_id, .EXECUTE,
    .execute "oracle.query_property" (propAt step)
      (env.oracle (env.propose step) (propAt step))⟩

/-- The INTERPRET event of iteration `step` starting from belief state
`beliefs` (`agent.py` lines 115–153): beliefs are merged and decayed,
scored, sorted descending by the stable sort and truncated to 10. -/
def interpEventAt (env : RunEnv) (cons : Constraints) (step : Nat)
    (beliefs : Beliefs) : Event :=
  ⟨env.run_id, .INTERPRET,
    .interpret (env.interpId step) (env.hypId step)
      ("Updated beliefs after measuring " ++ propAt step ++ ".")
      ((sortDesc (scoredOf (iterOnce env cons step beliefs)
        cons.target_bandgap)).take 10)
      ["Scalarization is heuristic.",
        "Noise and failures may bias early measurements."]⟩

/-- The four events appended by one loop iteration, in append order. -/
def iterEvents (env : RunEnv) (cons : Constraints) (step : Nat)
    (beliefs : Beliefs) : List Event :=
  [hypEventAt env step, designEventAt env step, execEventAt env step,
    interpEventAt env cons step beliefs]

/-- The terminal UPDATE event (`agent.py` lines 159–169 and 175–185). -/
def updateEvent (env : RunEnv) (reason : String) (budget : Budget) :
    Event :=
  ⟨env.run_id, .UPDATE, .update "done" reason budget⟩

/-- The `while budget.tool_calls_used < budget.max_tool_calls` loop of
`Investigator.run` (`agent.py` lines 48–187).  Returns the events appended
for this run (in append order), the final budget, and the termination
reason.  The stop check runs on the full merged-and-decayed belief state
(`iterOnce`), not on the truncated `updated_beliefs`. -/
def runLoop (env : RunEnv) (cons : Constraints) (budget : Budget)
    (beliefs : Beliefs) (step : Nat) : List Event × Budget × String :=
  if h : budget.tool_calls_used < budget.max_tool_calls then
    let budget' : Budget :=
      { budget with tool_calls_used := budget.tool_calls_used + 1 }
    let b2 := iterOnce env cons step beliefs
    if meetsConstraints b2 cons then
      (iterEvents env cons step beliefs ++
          [updateEvent env "constraints_met" budget'],
        budget', "constraints_met")
    else
      let rest := runLoop env cons budget' b2 (step + 1)
      (iterEvents env cons step beliefs ++ rest.1, rest.2)
  else
    ([updateEvent env "budget_exhausted" budget], budget,
      "budget_exhausted")
termination_by budget.max_tool_calls - budget.tool_calls_used
decreasing_by omega

/-- `Investigator.run`: fresh belief state, iteration counter 0. -/
def Investigator.run (env : RunEnv) (cons : Constraints)
    (budget : Budget) : List Event × Budget × String :=
  runLoop env cons budget [] 0

/-! ## Event store (`store.py`) -/

/-- A persisted row of the `events` table: `id` is the sqlite
`INTEGER PRIMARY KEY AUTOINCREMENT` column (global across runs); the `ts`
column is informational only and omitted. -/
structure Row where
  id : Nat
  run_id : String
  step : StepKind
  payload : Payload
deriving DecidableEq, Repr

/-- The `events` table plus the autoincrement counter (sqlite hands out
`1, 2, 3, …`). -/
structure DB where
  nextId : Nat
  rows : List Row
deriving DecidableEq, Repr

/-- A freshly created database (`SCHEMA` applied to an empty file). -/
def DB.empty : DB := ⟨1, []⟩

/-- `EventStore.append`: one INSERT; sqlite assigns the next autoincrement
id. -/
def DB.append (db : DB) (e : Event) : DB :=
  ⟨db.nextId + 1, db.rows ++ [⟨db.nextId, e.run_id, e.step, e.payload⟩]⟩

/-- A serialized history of appends, possibly interleaving several runs
(the store serializes concurrent appends; each committed INSERT takes the
next id). -/
def appendAll (db : DB) (es : List Event) : DB :=
  es.foldl DB.append db

/-- `EventStore.load`: `SELECT … WHERE run_id=? ORDER BY id ASC`.  Rows are
stored with strictly increasing ids in insertion order (proved below), so
ORDER BY id returns the insertion-order filter. -/
def DB.load (db : DB) (run : String) : List Row :=
  db.rows.filter (fun r => r.run_id = run)

/-! ## JSON view of persisted payloads -/

/-- JSON values, as produced by `json.dumps(event.payload)` in
`EventStore.append`; object keys are in dict insertion order. -/
inductive JVal where
  | str (s : String)
  | num (q : ℚ)
  | bool (b : Bool)
  | arr (xs : List JVal)
  | obj (kvs : List (String × JVal))

/-- First-match key lookup in a JSON object. -/
def JVal.get : JVal → String → Option JVal
  | .obj kvs, k => go kvs k
  | _, _ => none
where
  go : List (String × JVal) → String → Option JVal
    | [], _ => none
    | kv :: rest, k => if kv.1 = k then some kv.2 else go rest k

/-- The keys of a JSON object (empty for non-objects). -/
def JVal.keys : JVal → List String
  | .obj kvs => kvs.map Prod.fst
  | _ => []

/-- JSON form of a per-candidate outcome dict. -/
def mresultJson : MResult → JVal
  | .failure e => .obj [("ok", .bool false), ("error", .str e)]
  | .success v => .obj [("ok", .bool true), ("value", .num v)]

/-- JSON form of the dict returned by `SyntheticOracle.query_property`. -/
def oracleRespJson (r : OracleResp) : JVal :=
  .obj [("property", .str r.property),
    ("results", .obj (r.results.map (fun cr => (cr.1, mresultJson cr.2))))]

/-- JSON form of an event payload, mirroring the dicts built in
`agent.py` (pydantic `model_dump()` for HYPOTHESIS/DESIGN/INTERPRET, the
literal dicts for EXECUTE and UPDATE). -/
def payloadJson : Payload → JVal
  | .hypothesis id statement cands assumptions =>
      .obj [("id", .str id), ("statement", .str statement),
        ("candidates", .arr (cands.map .str)),
        ("assumptions", .arr (assumptions.map .str))]
  | .design id hid ttype tprop cands rationale =>
      .obj [("id", .str id), ("hypothesis_id", .str hid),
        ("test_type", .str ttype), ("target_property", .str tprop),
        ("candidates", .arr (cands.map .str)),
        ("rationale", .str rationale)]
  | .execute tool prop raw =>
      .obj [("tool", .str tool), ("property", .str prop),
        ("results", oracleRespJson raw)]
  | .interpret id hid summary updated notes =>
      .obj [("id", .str id), ("hypothesis_id", .str hid),
        ("summary", .str summary),
        ("updated_beliefs",
          .obj (updated.map (fun kv => (kv.1, .num kv.2)))),
        ("uncertainty_notes", .arr (notes.map .str))]
  | .update status reason budget =>
      .obj [("status", .str status), ("reason", .str reason),
        ("budget",
          .obj [("max_tool_calls", .num budget.max_tool_calls),
            ("tool_calls_used", .num budget.tool_calls_used)])]

/-- `agent.py` lines 97–98, with a measurement source that may raise: the
budget increment is sequenced before the call is issued, so the mutated
budget retains the increment even when the call raises (`Except.error`). -/
def executeStep (budget : Budget)
    (call : Unit → Except String OracleResp) :
    Budget × Except String OracleResp :=
  let budget' : Budget :=
    { budget with tool_calls_used := budget.tool_calls_used + 1 }
  (budget', call ())

/-! ## Unfolding lemmas for the loop -/

theorem runLoop_exhausted (env : RunEnv) (cons : Constraints) {m u : Nat}
    (h : ¬ u < m) (b : Beliefs) (s : Nat) :
    runLoop env cons ⟨m, u⟩ b s =
      ([updateEvent env "budget_exhausted" ⟨m, u⟩], ⟨m, u⟩,
        "budget_exhausted") := by
  rw [runLoop.eq_def]
  simp [h]

theorem runLoop_met (env : RunEnv) (cons : Constraints) {m u : Nat}
    (h : u < m) (b : Beliefs) (s : Nat)
    (hm : meetsConstraints (iterOnce env cons s b) cons = true) :
    runLoop env cons ⟨m, u⟩ b s =
      (iterEvents env cons s b ++
          [updateEvent env "constraints_met" ⟨m, u + 1⟩],
        ⟨m, u + 1⟩, "constraints_met") := by
  rw [runLoop.eq_def]
  simp [h, hm]

theorem runLoop_cont (env : RunEnv) (cons : Constraints) {m u : Nat}
    (h : u < m) (b : Beliefs) (s : Nat)
    (hm : ¬ meetsConstraints (iterOnce env cons s b) cons = true) :
    runLoop env cons ⟨m, u⟩ b s =
      (iterEvents env cons s b ++
          (runLoop env cons ⟨m, u + 1⟩ (iterOnce env cons s b) (s + 1)).1,
        (runLoop env cons ⟨m, u + 1⟩ (iterOnce env cons s b) (s + 1)).2) := by
  rw [runLoop.eq_def]
  simp [h, hm]

/-! ## Run-level structure lemmas -/

theorem beliefsFrom_shift (env : RunEnv) (cons : Constraints) (b : Beliefs)
    (s : Nat) : ∀ n : Nat,
    beliefsFrom env cons b s (n + 1) =
      beliefsFrom env cons (iterOnce env cons s b) (s + 1) n := by
  intro n
  induction n with
  | zero => simp [beliefsFrom]
  | succ n ih =>
      have harith : s + (n + 1) = s + 1 + n := by omega
      calc beliefsFrom env cons b s (n + 1 + 1)
          = iterOnce env cons (s + (n + 1)) (beliefsFrom env cons b s (n + 1)) := rfl
        _ = iterOnce env cons (s + 1 + n)
              (beliefsFrom env cons (iterOnce env cons s b) (s + 1) n) := by
              rw [ih, harith]
        _ = beliefsFrom env cons (iterOnce env cons s b) (s + 1) (n + 1) := rfl

theorem runLoop_update_structure (env : RunEnv) (cons : Constraints) :
    ∀ (fuel m u : Nat), m - u ≤ fuel → ∀ (b : Beliefs) (s : Nat),
    ((runLoop env cons ⟨m, u⟩ b s).1.countP
        (fun e => e.step = StepKind.UPDATE) = 1) ∧
    (runLoop env cons ⟨m, u⟩ b s).1.getLast? =
      some (updateEvent env (runLoop env cons ⟨m, u⟩ b s).2.2
        (runLoop env cons ⟨m, u⟩ b s).2.1) := by
  intro fuel
  induction fuel with
  | zero =>
      intro m u hfu b s
      have h : ¬ u < m := by omega
      rw [runLoop_exhausted env cons h]
      simp [updateEvent]
  | succ n ih =>
      intro m u hfu b s
      by_cases h : u < m
      · by_cases hm : meetsConstraints (iterOnce env cons s b) cons = true
        · rw [runLoop_met env cons h b s hm]
          simp [iterEvents, hypEventAt, designEventAt, execEventAt,
            interpEventAt, updateEvent]
        · rw [runLoop_cont env cons h b s hm]
          have hrec := ih m (u + 1) (by omega) (iterOnce env cons s b)
            (s + 1)
          obtain ⟨hcnt, hlast⟩ := hrec
          constructor
          · simp only [List.countP_append, hcnt]
            simp [iterEvents, hypEventAt, designEventAt, execEventAt,
              interpEventAt]
          · have hne : (runLoop env cons ⟨m, u + 1⟩ (iterOnce env cons s b)
                (s + 1)).1 ≠ [] := by
              intro hnil
              rw [hnil] at hcnt
              simp at hcnt
            dsimp only
            rw [List.getLast?_append_of_ne_nil _ hne]
            exact hlast
      · rw [runLoop_exhausted env cons h]
        simp [updateEvent]

theorem runLoop_reason_cases (env : RunEnv) (cons : Constraints) :
    ∀ (fuel m u : Nat), m - u ≤ fuel → ∀ (b : Beliefs) (s : Nat),
    (runLoop env cons ⟨m, u⟩ b s).2.2 = "constraints_met" ∨
      (runLoop env cons ⟨m, u⟩ b s).2.2 = "budget_exhausted" := by
  intro fuel
  induction fuel with
  | zero =>
      intro m u hfu b s
      have h : ¬ u < m := by omega
      rw [runLoop_exhausted env cons h]
      right; rfl
  | succ n ih =>
      intro m u hfu b s
      by_cases h : u < m
      · by_cases hm : meetsConstraints (iterOnce env cons s b) cons = true
        · rw [runLoop_met env cons h b s hm]; left; rfl
        · rw [runLoop_cont env cons h b s hm]
          exact ih m (u + 1) (by omega) (iterOnce env cons s b) (s + 1)
      · rw [runLoop_exhausted env cons h]; right; rfl

theorem runLoop_budget_eq (env : RunEnv) (cons : Constraints) :
    ∀ (fuel m u : Nat), m - u ≤ fuel → ∀ (b : Beliefs) (s : Nat),
    (runLoop env cons ⟨m, u⟩ b s).2.1 =
      ⟨m, u + (runLoop env cons ⟨m, u⟩ b s).1.countP
        (fun e => e.step = StepKind.EXECUTE)⟩ := by
  intro fuel
  induction fuel with
  | zero =>
      intro m u hfu b s
      have h : ¬ u < m := by omega
      rw [runLoop_exhausted env cons h]
      simp [updateEvent]
  | succ n ih =>
      intro m u hfu b s
      by_cases h : u < m
      · by_cases hm : meetsConstraints (iterOnce env cons s b) cons = true
        · rw [runLoop_met env cons h b s hm]
          simp [iterEvents, hypEventAt, designEventAt, execEventAt,
            interpEventAt, updateEvent]
        · rw [runLoop_cont env cons h b s hm]
          have hrec := ih m (u + 1) (by omega) (iterOnce env cons s b)
            (s + 1)
          dsimp only
          rw [List.countP_append, hrec]
          have hcnt : (iterEvents env cons s b).countP
              (fun e => e.step = StepKind.EXECUTE) = 1 := by
            simp [iterEvents, hypEventAt, designEventAt, execEventAt,
              interpEventAt]
          rw [hcnt]
          congr 1
          omega
      · rw [runLoop_exhausted env cons h]
        simp [updateEvent]

theorem runLoop_stop_iff (env : RunEnv) (cons : Constraints) :
    ∀ (fuel m u : Nat), m - u ≤ fuel → ∀ (b : Beliefs) (s : Nat),
    ((runLoop env cons ⟨m, u⟩ b s).2.2 = "constraints_met" ↔
      ∃ k, k < m - u ∧
        meetsConstraints (beliefsFrom env cons b s (k + 1)) cons = true) := by
  intro fuel
  induction fuel with
  | zero =>
      intro m u hfu b s
      have h : ¬ u < m := by omega
      rw [runLoop_exhausted env cons h]
      constructor
      · intro habs
        dsimp only at habs
        exact absurd habs (by decide)
      · rintro ⟨k, hk, -⟩
        omega
  | succ n ih =>
      intro m u hfu b s
      by_cases h : u < m
      · by_cases hm : meetsConstraints (iterOnce env cons s b) cons = true
        · rw [runLoop_met env cons h b s hm]
          constructor
          · intro _
            refine ⟨0, by omega, ?_⟩
            simpa [beliefsFrom] using hm
          · intro _
            rfl
        · rw [runLoop_cont env cons h b s hm]
          have hrec := ih m (u + 1) (by omega) (iterOnce env cons s b)
            (s + 1)
          dsimp only
          rw [hrec]
          constructor
          · rintro ⟨k, hk, hmk⟩
            refine ⟨k + 1, by omega, ?_⟩
            rw [beliefsFrom_shift]
            exact hmk
          · rintro ⟨k, hk, hmk⟩
            match k with
            | 0 =>
                exfalso
                apply hm
                simpa [beliefsFrom] using hmk
            | k + 1 =>
                refine ⟨k, by omega, ?_⟩
                rw [← beliefsFrom_shift]
                exact hmk
      · rw [runLoop_exhausted env cons h]
        constructor
        · intro habs
          dsimp only at habs
          exact absurd habs (by decide)
        · rintro ⟨k, hk, -⟩
          omega

theorem runLoop_first_stop (env : RunEnv) (cons : Constraints) :
    ∀ (fuel m u : Nat), m - u ≤ fuel → ∀ (b : Beliefs) (s : Nat),
    (runLoop env cons ⟨m, u⟩ b s).2.2 = "constraints_met" →
    (1 ≤ (runLoop env cons ⟨m, u⟩ b s).1.countP
        (fun e => e.step = StepKind.EXECUTE) ∧
      meetsConstraints
        (beliefsFrom env cons b s
          ((runLoop env cons ⟨m, u⟩ b s).1.countP
            (fun e => e.step = StepKind.EXECUTE))) cons = true ∧
      ∀ t, 1 ≤ t →
        t < (runLoop env cons ⟨m, u⟩ b s).1.countP
          (fun e => e.step = StepKind.EXECUTE) →
        meetsConstraints (beliefsFrom env cons b s t) cons = false) := by
  intro fuel
  induction fuel with
  | zero =>
      intro m u hfu b s habs
      rw [runLoop_exhausted env cons (by omega)] at habs
      dsimp only at habs
      exact absurd habs (by decide)
  | succ n ih =>
      intro m u hfu b s hstop
      by_cases h : u < m
      · by_cases hm : meetsConstraints (iterOnce env cons s b) cons = true
        · rw [runLoop_met env cons h b s hm]
          have hcnt : ((iterEvents env cons s b ++
              [updateEvent env "constraints_met" ⟨m, u + 1⟩]).countP
                (fun e => e.step = StepKind.EXECUTE)) = 1 := by
            simp [iterEvents, hypEventAt, designEventAt, execEventAt,
              interpEventAt, updateEvent]
          rw [hcnt]
          refine ⟨le_refl 1, ?_, ?_⟩
          · simpa [beliefsFrom] using hm
          · intro t ht1 ht2
            omega
        · rw [runLoop_cont env cons h b s hm] at hstop ⊢
          dsimp only at hstop ⊢
          have hrec := ih m (u + 1) (by omega) (iterOnce env cons s b)
            (s + 1) hstop
          obtain ⟨h1, h2, h3⟩ := hrec
          have hcnt : ((iterEvents env cons s b ++
              (runLoop env cons ⟨m, u + 1⟩ (iterOnce env cons s b)
                (s + 1)).1).countP (fun e => e.step = StepKind.EXECUTE)) =
              1 + (runLoop env cons ⟨m, u + 1⟩ (iterOnce env cons s b)
                (s + 1)).1.countP (fun e => e.step = StepKind.EXECUTE) := by
            rw [List.countP_append]
            have : (iterEvents env cons s b).countP
                (fun e => e.step = StepKind.EXECUTE) = 1 := by
              simp [iterEvents, hypEventAt, designEventAt, execEventAt,
                interpEventAt]
            omega
          rw [hcnt]
          set n' := (runLoop env cons ⟨m, u + 1⟩ (iterOnce env cons s b)
            (s + 1)).1.countP (fun e => e.step = StepKind.EXECUTE) with hn'
          refine ⟨by omega, ?_, ?_⟩
          · have : 1 + n' = n' + 1 := by omega
            rw [this, beliefsFrom_shift]
            exact h2
          · intro t ht1 ht2
            match t, ht1 with
            | 1, _ =>
                simpa [beliefsFrom] using hm
            | t' + 2, _ =>
                have : t' + 2 = (t' + 1) + 1 := by omega
                rw [this, beliefsFrom_shift]
                exact h3 (t' + 1) (by omega) (by omega)
      · rw [runLoop_exhausted env cons h] at hstop
        dsimp only at hstop
        exact absurd hstop (by decide)

theorem runLoop_exec_events (env : RunEnv) (cons : Constraints) :
    ∀ (fuel m u : Nat), m - u ≤ fuel → ∀ (b : Beliefs) (s : Nat),
    ∀ e ∈ (runLoop env cons ⟨m, u⟩ b s).1, e.step = StepKind.EXECUTE →
    ∃ k, k < m - u ∧ e = execEventAt env (s + k) := by
  intro fuel
  induction fuel with
  | zero =>
      intro m u hfu b s e he hstep
      rw [runLoop_exhausted env cons (by omega)] at he
      simp only [List.mem_singleton] at he
      rw [he] at hstep
      exact absurd hstep (by simp [updateEvent])
  | succ n ih =>
      intro m u hfu b s e he hstep
      by_cases h : u < m
      · by_cases hm : meetsConstraints (iterOnce env cons s b) cons = true
        · rw [runLoop_met env cons h b s hm] at he
          simp only [iterEvents, List.mem_append, List.mem_cons,
            List.mem_singleton, List.not_mem_nil, or_false] at he
          rcases he with ((h1 | h2 | h3 | h4) | h5)
          · rw [h1] at hstep; exact absurd hstep (by simp [hypEventAt])
          · rw [h2] at hstep; exact absurd hstep (by simp [designEventAt])
          · exact ⟨0, by omega, by simpa using h3⟩
          · rw [h4] at hstep; exact absurd hstep (by simp [interpEventAt])
          · rw [h5] at hstep; exact absurd hstep (by simp [updateEvent])
        · rw [runLoop_cont env cons h b s hm] at he
          dsimp only at he
          rw [List.mem_append] at he
          rcases he with hin | hin
          · simp only [iterEvents, List.mem_cons, List.mem_singleton,
              List.not_mem_nil, or_false] at hin
            rcases hin with h1 | h2 | h3 | h4
            · rw [h1] at hstep; exact absurd hstep (by simp [hypEventAt])
            · rw [h2] at hstep; exact absurd hstep (by simp [designEventAt])
            · exact ⟨0, by omega, by simpa using h3⟩
            · rw [h4] at hstep
              exact absurd hstep (by simp [interpEventAt])
          · obtain ⟨k, hk, hke⟩ := ih m (u + 1) (by omega)
              (iterOnce env cons s b) (s + 1) e hin hstep
            refine ⟨k + 1, by omega, ?_⟩
            rw [hke]
            congr 1
            omega
      · rw [runLoop_exhausted env cons h] at he
        simp only [List.mem_singleton] at he
        rw [he] at hstep
        exact absurd hstep (by simp [updateEvent])

theorem runLoop_interp_events (env : RunEnv) (cons : Constraints) :
    ∀ (fuel m u : Nat), m - u ≤ fuel → ∀ (b : Beliefs) (s : Nat),
    ∀ e ∈ (runLoop env cons ⟨m, u⟩ b s).1, e.step = StepKind.INTERPRET →
    ∃ k, k < m - u ∧
      e = interpEventAt env cons (s + k) (beliefsFrom env cons b s k) := by
  intro fuel
  induction fuel with
  | zero =>
      intro m u hfu b s e he hstep
      rw [runLoop_exhausted env cons (by omega)] at he
      simp only [List.mem_singleton] at he
      rw [he] at hstep
      exact absurd hstep (by simp [updateEvent])
  | succ n ih =>
      intro m u hfu b s e he hstep
      by_cases h : u < m
      · by_cases hm : meetsConstraints (iterOnce env cons s b) cons = true
        · rw [runLoop_met env cons h b s hm] at he
          simp only [iterEvents, List.mem_append, List.mem_cons,
            List.mem_singleton, List.not_mem_nil, or_false] at he
          rcases he with ((h1 | h2 | h3 | h4) | h5)
          · rw [h1] at hstep; exact absurd hstep (by simp [hypEventAt])
          · rw [h2] at hstep; exact absurd hstep (by simp [designEventAt])
          · rw [h3] at hstep; exact absurd hstep (by simp [execEventAt])
          · exact ⟨0, by omega, by simpa [beliefsFrom] using h4⟩
          · rw [h5] at hstep; exact absurd hstep (by simp [updateEvent])
        · rw [runLoop_cont env cons h b s hm] at he
          dsimp only at he
          rw [List.mem_append] at he
          rcases he with hin | hin
          · simp only [iterEvents, List.mem_cons, List.mem_singleton,
              List.not_mem_nil, or_false] at hin
            rcases hin with h1 | h2 | h3 | h4
            · rw [h1] at hstep; exact absurd hstep (by simp [hypEventAt])
            · rw [h2] at hstep; exact absurd hstep (by simp [designEventAt])
            · rw [h3] at hstep; exact absurd hstep (by simp [execEventAt])
            · exact ⟨0, by omega, by simpa [beliefsFrom] using h4⟩
          · obtain ⟨k, hk, hke⟩ := ih m (u + 1) (by omega)
              (iterOnce env cons s b) (s + 1) e hin hstep
            refine ⟨k + 1, by omega, ?_⟩
            rw [hke, beliefsFrom_shift]
            congr 1
            omega
      · rw [runLoop_exhausted env cons h] at he
        simp only [List.mem_singleton] at he
        rw [he] at hstep
        exact absurd hstep (by simp [updateEvent])

theorem runLoop_execCount_le (env : RunEnv) (cons : Constraints) :
    ∀ (fuel m u : Nat), m - u ≤ fuel → ∀ (b : Beliefs) (s : Nat),
    (runLoop env cons ⟨m, u⟩ b s).1.countP
      (fun e => e.step = StepKind.EXECUTE) ≤ m - u := by
  intro fuel
  induction fuel with
  | zero =>
      intro m u hfu b s
      rw [runLoop_exhausted env cons (by omega)]
      simp [updateEvent]
  | succ n ih =>
      intro m u hfu b s
      by_cases h : u < m
      · by_cases hm : meetsConstraints (iterOnce env cons s b) cons = true
        · rw [runLoop_met env cons h b s hm]
          have : ((iterEvents env cons s b ++
              [updateEvent env "constraints_met" ⟨m, u + 1⟩]).countP
                (fun e => e.step = StepKind.EXECUTE)) = 1 := by
            simp [iterEvents, hypEventAt, designEventAt, execEventAt,
              interpEventAt, updateEvent]
          rw [this]
          omega
        · rw [runLoop_cont env cons h b s hm]
          dsimp only
          rw [List.countP_append]
          have h1 : (iterEvents env cons s b).countP
              (fun e => e.step = StepKind.EXECUTE) = 1 := by
            simp [iterEvents, hypEventAt, designEventAt, execEventAt,
              interpEventAt]
          have h2 := ih m (u + 1) (by omega) (iterOnce env cons s b) (s + 1)
          omega
      · rw [runLoop_exhausted env cons h]
        simp [updateEvent]

/-! ## Concrete inputs used by witnesses and counterexamples -/

/-- A trivial deterministic measurement source answering value 1 for every
candidate (used to instantiate runs at concrete inputs). -/
def oracleConst1 : List String → String → OracleResp :=
  fun cands prop => ⟨prop, cands.map (fun c => (c, .success 1))⟩

/-- A run environment with a fixed candidate batch and `oracleConst1`. -/
def envOf (cands : List String) : RunEnv :=
  { run_id := "r", hypId := fun _ => "h", designId := fun _ => "d",
    interpId := fun _ => "i", propose := fun _ => cands,
    oracle := oracleConst1 }

/-- Default constraints with no forgetting (`belief_decay = 1.0`). -/
def consNoDecay : Constraints := { belief_decay := 1 }

/-- A twelve-candidate batch. -/
def candList12 : List String :=
  ["c01", "c02", "c03", "c04", "c05", "c06", "c07", "c08", "c09", "c10",
    "c11", "c12"]

/-- A concrete draw-stream model: failure and corruption draws 0, base
value the seed itself. -/
def draws0 : Draws :=
  ⟨fun _ => 0, fun h => (h : ℚ), fun _ => 0, fun _ => 0⟩

/-! ## C9 -/

/-- C9: when the budget is already exhausted on entry
(`tool_calls_used ≥ max_tool_calls`), the loop body never runs: the run
appends exactly one event, a terminal UPDATE with reason
`budget_exhausted`, and the budget is unchanged. -/
theorem c9_exhausted_on_entry (env : RunEnv) (cons : Constraints)
    {m u : Nat} (h : m ≤ u) :
    Investigator.run env cons ⟨m, u⟩ =
      ([updateEvent env "budget_exhausted" ⟨m, u⟩], ⟨m, u⟩,
        "budget_exhausted") := by
  unfold Investigator.run
  exact runLoop_exhausted env cons (by omega) [] 0

/-- Witness for C9 at `max_tool_calls = 0`, `tool_calls_used = 0`. -/
theorem c9_exhausted_on_entry_witness :
    Investigator.run (envOf ["x"]) consNoDecay ⟨0, 0⟩ =
      ([updateEvent (envOf ["x"]) "budget_exhausted" ⟨0, 0⟩], ⟨0, 0⟩,
        "budget_exhausted") :=
  c9_exhausted_on_entry (envOf ["x"]) consNoDecay (Nat.le_refl 0)

/-! ## C3 -/

/-- C3: over a whole run started with `tool_calls_used = 0`, the final
`tool_calls_used` equals the number of EXECUTE events appended and never
exceeds `max_tool_calls`; and in the execute block the increment is
sequenced before the call is issued, so a call that raises still counts
against the budget. -/
theorem c3_budget_counting (env : RunEnv) (cons : Constraints) (m : Nat) :
    ((Investigator.run env cons ⟨m, 0⟩).2.1.tool_calls_used =
      (Investigator.run env cons ⟨m, 0⟩).1.countP
        (fun e => e.step = StepKind.EXECUTE)) ∧
    (Investigator.run env cons ⟨m, 0⟩).2.1.tool_calls_used ≤ m ∧
    (∀ (budget : Budget) (call : Unit → Except String OracleResp),
      (executeStep budget call).1.tool_calls_used =
        budget.tool_calls_used + 1) := by
  unfold Investigator.run
  have hb := runLoop_budget_eq env cons (m - 0) m 0 (le_refl _) [] 0
  have hc := runLoop_execCount_le env cons (m - 0) m 0 (le_refl _) [] 0
  refine ⟨?_, ?_, ?_⟩
  · rw [hb]
    simp
  · rw [hb]
    simp only [Nat.zero_add]
    omega
  · intro budget call
    rfl

/-! ## C1 -/

/-- C1 (code evaluation): within one process — that is, for one fixed
`pyhash` function — every per-candidate outcome of a batched oracle call
is the pure function `queryCandidate` of `(seed, candidate)` and the
requested property, independent of call order and batch composition; but
the outcome genuinely depends on the `pyhash` function, and CPython salts
string hashing per process, so two runs in different processes can draw
different values for the same `(seed, candidate)`. -/
theorem c1_per_candidate_stream :
    (∀ (O : SyntheticOracle) (D : Draws) (pyhash : Int → String → Int)
      (cands : List String) (prop c : String) (r : MResult),
      (c, r) ∈ (O.queryProp D pyhash cands prop).results →
      r = queryCandidate O D pyhash prop c) ∧
    (∃ (O : SyntheticOracle) (D : Draws)
      (pyhash1 pyhash2 : Int → String → Int) (c : String),
      queryCandidate O D pyhash1 "stability" c ≠
        queryCandidate O D pyhash2 "stability" c) := by
  constructor
  · intro O D pyhash cands prop c r hmem
    simp only [SyntheticOracle.queryProp, List.mem_map] at hmem
    obtain ⟨a, _, heq⟩ := hmem
    obtain ⟨rfl, rfl⟩ := Prod.mk.injEq .. ▸ heq
    rfl
  · refine ⟨⟨0, 0, 0⟩, draws0, fun _ _ => 0, fun _ _ => 1, "Li1Na1O1", ?_⟩
    decide

/-- Witness for the universally quantified half of `c1_per_candidate_stream`
at a concrete batch. -/
theorem c1_per_candidate_stream_witness :
    MResult.success 0 =
      queryCandidate ⟨0, 0, 0⟩ draws0 (fun _ _ => 0) "stability" "x" :=
  c1_per_candidate_stream.1 ⟨0, 0, 0⟩ draws0 (fun _ _ => 0) ["x"]
    "stability" "x" (MResult.success 0) (by decide)

/-! ## C2 -/

theorem meetsConstraints_iff (b : Beliefs) (cons : Constraints) :
    meetsConstraints b cons = true ↔
      ∃ cr ∈ b, ∃ sv bg : ℚ,
        recGet cr.2 "stability" = some sv ∧
        recGet cr.2 "bandgap" = some bg ∧
        cons.stability_min ≤ sv ∧ cons.bandgap_min ≤ bg ∧
        bg ≤ cons.bandgap_max := by
  unfold meetsConstraints
  rw [List.any_eq_true]
  constructor
  · rintro ⟨cr, hin, hp⟩
    refine ⟨cr, hin, ?_⟩
    rcases h1 : recGet cr.2 "stability" with - | sv
    · rw [h1] at hp; simp at hp
    rcases h2 : recGet cr.2 "bandgap" with - | bg
    · rw [h1, h2] at hp; simp at hp
    rw [h1, h2] at hp
    simp only [decide_eq_true_eq] at hp
    exact ⟨sv, bg, rfl, rfl, hp.1, hp.2.1, hp.2.2⟩
  · rintro ⟨cr, hin, sv, bg, h1, h2, h3, h4, h5⟩
    refine ⟨cr, hin, ?_⟩
    rw [h1, h2]
    simp only [decide_eq_true_eq]
    exact ⟨h3, h4, h5⟩

/-- C2: every run started with a fresh budget appends exactly one UPDATE
event and it is the last event, carrying the final reason and budget; the
reason is `constraints_met` exactly when some iteration within the budget
produces a post-decay belief state satisfying the constraint check (which
scans the whole decayed belief state, `beliefsFrom`, not the truncated
`updated_beliefs`); in that case the run stops at the first such
iteration (the number of iterations executed equals the number of EXECUTE
events, and no earlier iteration satisfied the check); otherwise the
run ends with reason `budget_exhausted`.  The final conjunct unfolds the
check to the claim's wording: some candidate with both `stability` and
`bandgap` recorded, with `stability ≥ stability_min` and
`bandgap_min ≤ bandgap ≤ bandgap_max`. -/
theorem c2_termination (env : RunEnv) (cons : Constraints) (m : Nat) :
    ((Investigator.run env cons ⟨m, 0⟩).1.countP
        (fun e => e.step = StepKind.UPDATE) = 1) ∧
    ((Investigator.run env cons ⟨m, 0⟩).1.getLast? =
      some (updateEvent env (Investigator.run env cons ⟨m, 0⟩).2.2
        (Investigator.run env cons ⟨m, 0⟩).2.1)) ∧
    ((Investigator.run env cons ⟨m, 0⟩).2.2 = "constraints_met" ∨
      (Investigator.run env cons ⟨m, 0⟩).2.2 = "budget_exhausted") ∧
    ((Investigator.run env cons ⟨m, 0⟩).2.2 = "constraints_met" ↔
      ∃ k, k < m ∧
        meetsConstraints (beliefsFrom env cons [] 0 (k + 1)) cons = true) ∧
    ((Investigator.run env cons ⟨m, 0⟩).2.2 = "constraints_met" →
      1 ≤ (Investigator.run env cons ⟨m, 0⟩).1.countP
          (fun e => e.step = StepKind.EXECUTE) ∧
        meetsConstraints
          (beliefsFrom env cons [] 0
            ((Investigator.run env cons ⟨m, 0⟩).1.countP
              (fun e => e.step = StepKind.EXECUTE))) cons = true ∧
        ∀ t, 1 ≤ t →
          t < (Investigator.run env cons ⟨m, 0⟩).1.countP
            (fun e => e.step = StepKind.EXECUTE) →
          meetsConstraints (beliefsFrom env cons [] 0 t) cons = false) ∧
    (∀ b : Beliefs, meetsConstraints b cons = true ↔
      ∃ cr ∈ b, ∃ sv bg : ℚ,
        recGet cr.2 "stability" = some sv ∧
        recGet cr.2 "bandgap" = some bg ∧
        cons.stability_min ≤ sv ∧ cons.bandgap_min ≤ bg ∧
        bg ≤ cons.bandgap_max) := by
  unfold Investigator.run
  refine ⟨(runLoop_update_structure env cons (m - 0) m 0 (le_refl _) [] 0).1,
    (runLoop_update_structure env cons (m - 0) m 0 (le_refl _) [] 0).2,
    runLoop_reason_cases env cons (m - 0) m 0 (le_refl _) [] 0, ?_,
    runLoop_first_stop env cons (m - 0) m 0 (le_refl _) [] 0,
    fun b => meetsConstraints_iff b cons⟩
  have := runLoop_stop_iff env cons (m - 0) m 0 (le_refl _) [] 0
  simpa using this

/-! ## C6 -/

/-- The rows created by a sequence of appends starting at autoincrement
value `n`. -/
def rowsOf : Nat → List Event → List Row
  | _, [] => []
  | n, e :: rest => ⟨n, e.run_id, e.step, e.payload⟩ :: rowsOf (n + 1) rest

theorem appendAll_rows (es : List Event) :
    ∀ db : DB, (appendAll db es).rows = db.rows ++ rowsOf db.nextId es := by
  induction es with
  | nil => intro db; simp [appendAll, rowsOf]
  | cons e rest ih =>
      intro db
      show (appendAll (db.append e) rest).rows = _
      rw [ih (db.append e)]
      simp [DB.append, rowsOf]

theorem rowsOf_filter_proj (run : String) :
    ∀ (es : List Event) (n : Nat),
    ((rowsOf n es).filter (fun r => r.run_id = run)).map
        (fun r => (r.run_id, r.step, r.payload)) =
      (es.filter (fun e => e.run_id = run)).map
        (fun e => (e.run_id, e.step, e.payload)) := by
  intro es
  induction es with
  | nil => intro n; simp [rowsOf]
  | cons e rest ih =>
      intro n
      by_cases h : e.run_id = run
      · simp [rowsOf, List.filter_cons, h, ih (n + 1)]
      · simp [rowsOf, List.filter_cons, h, ih (n + 1)]

theorem rowsOf_id_bounds :
    ∀ (es : List Event) (n : Nat), ∀ r ∈ rowsOf n es, n ≤ r.id := by
  intro es
  induction es with
  | nil => intro n r hr; simp [rowsOf] at hr
  | cons e rest ih =>
      intro n r hr
      simp only [rowsOf, List.mem_cons] at hr
      rcases hr with rfl | hr
      · exact le_refl n
      · have := ih (n + 1) r hr
        omega

theorem rowsOf_pairwise :
    ∀ (es : List Event) (n : Nat),
    (rowsOf n es).Pairwise (fun r r' => r.id < r'.id) := by
  intro es
  induction es with
  | nil => intro n; simp [rowsOf]
  | cons e rest ih =>
      intro n
      simp only [rowsOf, List.pairwise_cons]
      refine ⟨?_, ih (n + 1)⟩
      intro r hr
      have := rowsOf_id_bounds rest (n + 1) r hr
      simpa using by omega

/-- C6 (amended): for any serialized interleaving of appends from several
runs into a fresh store, reading a run back (`ORDER BY id`) returns
exactly that run's events in their append order, and the persisted
autoincrement ids of the run's rows are strictly increasing (hence
duplicate-free); enumerating the read-back sequence therefore yields the
run-local positions `0 .. N-1`. -/
theorem c6_amended (es : List Event) (run : String) :
    (((appendAll DB.empty es).load run).map
        (fun r => (r.run_id, r.step, r.payload)) =
      (es.filter (fun e => e.run_id = run)).map
        (fun e => (e.run_id, e.step, e.payload))) ∧
    ((appendAll DB.empty es).load run).Pairwise
      (fun r r' => r.id < r'.id) := by
  constructor
  · rw [DB.load, appendAll_rows es DB.empty]
    show ((rowsOf DB.empty.nextId es).filter
        (fun r => r.run_id = run)).map _ = _
    exact rowsOf_filter_proj run es DB.empty.nextId
  · rw [DB.load, appendAll_rows es DB.empty]
    show ((rowsOf DB.empty.nextId es).filter _).Pairwise _
    exact (rowsOf_pairwise es DB.empty.nextId).filter _

/-- C6 counterexample: interleave two runs (`A`, `B`, `A`).  Run `A` has
two events whose persisted ids are `[1, 3]` — not the run-local, gap-free
`0 .. N-1 = [0, 1]` asserted by the claim (the schema has no run-local
sequence column; ids are global autoincrement values). -/
theorem c6_counterexample :
    (((appendAll DB.empty
        [⟨"A", .HYPOTHESIS, .update "done" "x" ⟨0, 0⟩⟩,
          ⟨"B", .HYPOTHESIS, .update "done" "x" ⟨0, 0⟩⟩,
          ⟨"A", .UPDATE, .update "done" "x" ⟨0, 0⟩⟩]).load "A").map
        Row.id = [1, 3]) ∧
    [1, 3] ≠ List.range 2 := by
  constructor
  · rfl
  · decide

/-! ## Stable-sort lemmas (for C7 and C4) -/

theorem insertDesc_perm (x : String × ℚ) :
    ∀ l : List (String × ℚ), (insertDesc x l).Perm (x :: l) := by
  intro l
  induction l with
  | nil => simp [insertDesc]
  | cons y ys ih =>
      by_cases h : x.2 < y.2
      · rw [insertDesc, if_pos h]
        exact List.Perm.trans (List.Perm.cons y ih)
          (List.Perm.swap x y ys)
      · rw [insertDesc, if_neg h]

theorem sortDesc_perm (l : List (String × ℚ)) : (sortDesc l).Perm l := by
  induction l with
  | nil => simp [sortDesc]
  | cons x xs ih =>
      show (insertDesc x (sortDesc xs)).Perm (x :: xs)
      exact (insertDesc_perm x (sortDesc xs)).trans (List.Perm.cons x ih)

theorem insertDesc_sorted (x : String × ℚ) :
    ∀ l : List (String × ℚ), l.Pairwise (fun a b => b.2 ≤ a.2) →
    (insertDesc x l).Pairwise (fun a b => b.2 ≤ a.2) := by
  intro l
  induction l with
  | nil => intro _; simp [insertDesc]
  | cons y ys ih =>
      intro hs
      rw [List.pairwise_cons] at hs
      obtain ⟨hy, hys⟩ := hs
      by_cases h : x.2 < y.2
      · rw [insertDesc, if_pos h]
        rw [List.pairwise_cons]
        refine ⟨?_, ih hys⟩
        intro z hz
        have hz' : z = x ∨ z ∈ ys :=
          List.mem_cons.mp ((insertDesc_perm x ys).mem_iff.mp hz)
        rcases hz' with h1 | h1
        · rw [h1]; exact le_of_lt h
        · exact hy z h1
      · rw [insertDesc, if_neg h]
        rw [List.pairwise_cons]
        refine ⟨?_, List.pairwise_cons.mpr ⟨hy, hys⟩⟩
        intro z hz
        have hz' : z = y ∨ z ∈ ys := List.mem_cons.mp hz
        rcases hz' with h1 | h1
        · rw [h1]; exact not_lt.mp h
        · exact le_trans (hy z h1) (not_lt.mp h)

theorem sortDesc_sorted (l : List (String × ℚ)) :
    (sortDesc l).Pairwise (fun a b => b.2 ≤ a.2) := by
  induction l with
  | nil => simp [sortDesc]
  | cons x xs ih =>
      exact insertDesc_sorted x (sortDesc xs) ih

theorem insertDesc_filter_eq (x : String × ℚ) (q : ℚ) :
    ∀ l : List (String × ℚ),
    (insertDesc x l).filter (fun p => p.2 = q) =
      if x.2 = q then x :: l.filter (fun p => p.2 = q)
      else l.filter (fun p => p.2 = q) := by
  intro l
  induction l with
  | nil =>
      by_cases h : x.2 = q
      · simp [insertDesc, h]
      · simp [insertDesc, h]
  | cons y ys ih =>
      by_cases h : x.2 < y.2
      · rw [insertDesc, if_pos h]
        by_cases hx : x.2 = q
        · have hy : ¬ y.2 = q := by
            intro hyq
            rw [hx] at h
            rw [hyq] at h
            exact lt_irrefl q h
          rw [if_pos hx]
          simp only [List.filter_cons, hy, decide_False]
          rw [ih, if_pos hx]
          simp [hy]
        · rw [if_neg hx]
          simp only [List.filter_cons]
          rw [ih, if_neg hx]
      · rw [insertDesc, if_neg h]
        by_cases hx : x.2 = q
        · rw [if_pos hx]
          simp [List.filter_cons, hx]
        · rw [if_neg hx]
          simp [List.filter_cons, hx]

theorem sortDesc_stable (l : List (String × ℚ)) (q : ℚ) :
    (sortDesc l).filter (fun p => p.2 = q) =
      l.filter (fun p => p.2 = q) := by
  induction l with
  | nil => simp [sortDesc]
  | cons x xs ih =>
      show (insertDesc x (sortDesc xs)).filter _ = _
      rw [insertDesc_filter_eq x q (sortDesc xs), ih]
      by_cases hx : x.2 = q
      · rw [if_pos hx]
        simp [List.filter_cons, hx]
      · rw [if_neg hx]
        simp [List.filter_cons, hx]

/-! ## C7 -/

/-- C7 counterexample: with batch `["b", "a"]`, a constant oracle and no
decay, the second INTERPRET event of a concrete run carries the tied
scores in belief-insertion order `[("b", 1/2), ("a", 1/2)]` — not in the
claimed candidate-identifier-ascending tie order, which would list `"a"`
first. -/
theorem c7_counterexample :
    (((Investigator.run (envOf ["b", "a"]) consNoDecay ⟨2, 0⟩).1.get?
        7).map (fun e => (e.step, e.payload.updatedBeliefs)) =
      some (StepKind.INTERPRET,
        [("b", (1 : ℚ)/2), ("a", (1 : ℚ)/2)])) ∧
    ¬ (([(("b" : String), (1 : ℚ)/2), ("a", (1 : ℚ)/2)]).Pairwise
        (fun x y => y.2 < x.2 ∨ (x.2 = y.2 ∧ x.1 < y.1))) := by
  have h1 := runLoop_cont (envOf ["b", "a"]) consNoDecay
    (show 0 < 2 by decide) [] 0 (by with_unfolding_all decide)
  have h2 := runLoop_met (envOf ["b", "a"]) consNoDecay
    (show 1 < 2 by decide) (iterOnce (envOf ["b", "a"]) consNoDecay 0 []) 1
    (by with_unfolding_all decide)
  constructor
  · show (((runLoop (envOf ["b", "a"]) consNoDecay ⟨2, 0⟩ [] 0).1.get?
        7).map (fun e => (e.step, e.payload.updatedBeliefs))) = _
    rw [h1]
    dsimp only
    rw [h2]
    with_unfolding_all decide
  · with_unfolding_all decide

/-- C7 (amended): the top-K selection sorts by score descending with
CPython's stable sort, so exact ties keep the scored-list order — the
belief-state insertion order — rather than being re-ordered by candidate
identifier; the output is still deterministic.  Every INTERPRET event of a
run is the 10-prefix of `sortDesc` applied to the scores of some
post-decay belief state. -/
theorem c7_amended :
    (∀ l : List (String × ℚ),
      (sortDesc l).Perm l ∧
      (sortDesc l).Pairwise (fun a b => b.2 ≤ a.2) ∧
      ∀ q : ℚ, (sortDesc l).filter (fun p => p.2 = q) =
        l.filter (fun p => p.2 = q)) ∧
    (∀ (env : RunEnv) (cons : Constraints) (m : Nat),
      ∀ e ∈ (Investigator.run env cons ⟨m, 0⟩).1,
        e.step = StepKind.INTERPRET →
        ∃ k, e.payload.updatedBeliefs =
          (sortDesc (scoredOf (beliefsFrom env cons [] 0 (k + 1))
            cons.target_bandgap)).take 10) := by
  constructor
  · intro l
    exact ⟨sortDesc_perm l, sortDesc_sorted l,
      fun q => sortDesc_stable l q⟩
  · intro env cons m e he hstep
    obtain ⟨k, hk, hke⟩ := runLoop_interp_events env cons (m - 0) m 0
      (le_refl _) [] 0 e he hstep
    refine ⟨k, ?_⟩
    rw [hke]
    rfl

/-- Witness for the run-level half of `c7_amended` at a concrete
one-iteration run. -/
theorem c7_amended_witness :
    ∃ k, (interpEventAt (envOf ["x"]) consNoDecay 0
        []).payload.updatedBeliefs =
      (sortDesc (scoredOf (beliefsFrom (envOf ["x"]) consNoDecay [] 0
        (k + 1)) consNoDecay.target_bandgap)).take 10 := by
  refine c7_amended.2 (envOf ["x"]) consNoDecay 1
    (interpEventAt (envOf ["x"]) consNoDecay 0 []) ?_ rfl
  show _ ∈ (runLoop (envOf ["x"]) consNoDecay ⟨1, 0⟩ [] 0).1
  rw [runLoop_cont (envOf ["x"]) consNoDecay (show 0 < 1 by decide) [] 0
    (by with_unfolding_all decide)]
  dsimp only
  rw [runLoop_exhausted (envOf ["x"]) consNoDecay (by omega)]
  with_unfolding_all decide

/-! ## C4 -/

theorem recGet_setProp_self (p : String) (v : ℚ) :
    ∀ rec : BeliefRec, recGet (setProp rec p v) p = some v := by
  intro rec
  induction rec with
  | nil => simp [setProp, recGet]
  | cons kv rest ih =>
      by_cases h : kv.1 = p
      · simp [setProp, h, recGet]
      · simp [setProp, h, recGet, ih]

theorem lookupVal_beliefSet_self (c p : String) (v : ℚ) :
    ∀ b : Beliefs, lookupVal (beliefSet b c p v) c p = some v := by
  intro b
  induction b with
  | nil => simp [beliefSet, lookupVal, lookupCand, recGet]
  | cons cr rest ih =>
      by_cases h : cr.1 = c
      · simp [beliefSet, h, lookupVal, lookupCand, recGet_setProp_self]
      · simp only [beliefSet, if_neg h]
        simpa [lookupVal, lookupCand, h] using ih

theorem lookupVal_beliefSet_other {c c' : String} (hne : c ≠ c')
    (p q : String) (v : ℚ) :
    ∀ b : Beliefs, lookupVal (beliefSet b c' p v) c q = lookupVal b c q := by
  intro b
  induction b with
  | nil =>
      have h : ¬ c' = c := fun h => hne h.symm
      simp [beliefSet, lookupVal, lookupCand, h]
  | cons cr rest ih =>
      by_cases h : cr.1 = c'
      · have hcrc : ¬ cr.1 = c := fun hc => hne (hc ▸ h)
        have h1 : ¬ c' = c := fun hh => hne hh.symm
        simp only [beliefSet, if_pos h]
        simp [lookupVal, lookupCand, h1, hcrc]
      · simp only [beliefSet, if_neg h]
        by_cases hc : cr.1 = c
        · simp [lookupVal, lookupCand, hc]
        · simp only [lookupVal, lookupCand, if_neg hc] at ih ⊢
          exact ih

theorem mergeResults_skip (c : String) (p q : String) :
    ∀ (rs : List (String × MResult)) (b : Beliefs),
    c ∉ rs.map Prod.fst →
    lookupVal (mergeResults b rs p) c q = lookupVal b c q := by
  intro rs
  induction rs with
  | nil => intro b _; rfl
  | cons hd tl ih =>
      intro b hnot
      simp only [List.map_cons, List.mem_cons] at hnot
      push_neg at hnot
      obtain ⟨hne, hnot'⟩ := hnot
      have hstep : mergeResults b (hd :: tl) p =
          mergeResults (match hd.2 with
            | MResult.failure _ => b
            | MResult.success v => beliefSet b hd.1 p v) tl p := rfl
      rw [hstep]
      rcases hr : hd.2 with e | v
      · exact ih b hnot'
      · show lookupVal (mergeResults (beliefSet b hd.1 p v) tl p) c q = _
        rw [ih _ hnot']
        exact lookupVal_beliefSet_other hne p q v b

theorem mergeResults_overwrite (b : Beliefs)
    (results : List (String × MResult)) (prop c : String) (v : ℚ)
    (hnd : (results.map Prod.fst).Nodup)
    (hin : (c, MResult.success v) ∈ results) :
    lookupVal (mergeResults b results prop) c prop = some v := by
  induction results generalizing b with
  | nil => simp at hin
  | cons hd tl ih =>
      simp only [List.map_cons, List.nodup_cons] at hnd
      obtain ⟨hh, ht⟩ := hnd
      have hstep : mergeResults b (hd :: tl) prop =
          mergeResults (match hd.2 with
            | MResult.failure _ => b
            | MResult.success w => beliefSet b hd.1 prop w) tl prop := rfl
      rcases List.mem_cons.mp hin with heq | hin'
      · have h1 : hd.1 = c := by rw [← heq]
        have h2 : hd.2 = MResult.success v := by rw [← heq]
        rw [hstep, h2]
        have hnotin : c ∉ tl.map Prod.fst := by
          rw [← h1]
          exact hh
        show lookupVal (mergeResults (beliefSet b hd.1 prop v) tl prop)
          c prop = some v
        rw [mergeResults_skip c prop prop tl _ hnotin, h1,
          lookupVal_beliefSet_self]
      · rw [hstep]
        exact ih _ ht hin'

theorem recGet_mapval (d : ℚ) (p : String) :
    ∀ rec : BeliefRec,
    recGet (rec.map (fun kv => (kv.1, kv.2 * d))) p =
      (recGet rec p).map (· * d) := by
  intro rec
  induction rec with
  | nil => simp [recGet]
  | cons kv rest ih =>
      by_cases h : kv.1 = p
      · simp [recGet, h]
      · simp [recGet, h, ih]

theorem lookupVal_decay (b : Beliefs) (d : ℚ) (c p : String) :
    lookupVal (decayBeliefs b d) c p = (lookupVal b c p).map (· * d) := by
  induction b with
  | nil => simp [decayBeliefs, lookupVal, lookupCand]
  | cons cr rest ih =>
      by_cases h : cr.1 = c
      · simp [decayBeliefs, lookupVal, lookupCand, h, recGet_mapval]
      · simpa [decayBeliefs, lookupVal, lookupCand, h] using ih

theorem scoredOf_mem_iff (b : Beliefs) (t : ℚ) (c : String) (x : ℚ) :
    (c, x) ∈ scoredOf b t ↔
      ∃ rec s bg : _, (c, rec) ∈ b ∧
        recGet rec "stability" = some s ∧
        recGet rec "bandgap" = some bg ∧ x = s - |bg - t| := by
  unfold scoredOf
  rw [List.mem_filterMap]
  constructor
  · rintro ⟨cr, hin, hf⟩
    rcases h1 : recGet cr.2 "stability" with - | s
    · rw [h1] at hf; simp at hf
    rcases h2 : recGet cr.2 "bandgap" with - | bg
    · rw [h1, h2] at hf; simp at hf
    rw [h1, h2] at hf
    simp only [Option.some.injEq, Prod.mk.injEq] at hf
    obtain ⟨rfl, rfl⟩ := hf
    exact ⟨cr.2, s, bg, by simpa using hin, h1, h2, rfl⟩
  · rintro ⟨rec, s, bg, hin, h1, h2, rfl⟩
    refine ⟨(c, rec), hin, ?_⟩
    dsimp only
    rw [h1, h2]

theorem take10_facts (l : List (String × ℚ)) :
    ((sortDesc l).take 10).length ≤ 10 ∧
    (∀ p, p ∈ (sortDesc l).take 10 → p ∈ l) ∧
    (l.length ≤ 10 → ∀ p, (p ∈ (sortDesc l).take 10 ↔ p ∈ l)) := by
  refine ⟨?_, ?_, ?_⟩
  · rw [List.length_take]
    exact Nat.min_le_left _ _
  · intro p hp
    exact (sortDesc_perm l).subset (List.take_subset 10 (sortDesc l) hp)
  · intro hlen p
    have hslen : (sortDesc l).length = l.length :=
      (sortDesc_perm l).length_eq
    rw [List.take_of_length_le (by omega)]
    exact (sortDesc_perm l).mem_iff

/-- C4 (amended): in every INTERPRET step, (i) a candidate measured
successfully has its stored value for the target property overwritten with
the new value; (ii) decay multiplies every stored value exactly once by
the decay factor; (iii) a candidate/score pair is in the scored list
exactly when its record has both `stability` and `bandgap`, with score
`stability − |bandgap − target|`; (iv) `updated_beliefs` is the 10-prefix
of the stably sorted scored list, so it has at most 10 entries, every
entry is a scored candidate, and — only when at most 10 candidates are
fully observed — a candidate appears iff its record has both entries. -/
theorem c4_interpret_step :
    (∀ (b : Beliefs) (results : List (String × MResult)) (prop c : String)
      (v : ℚ), (results.map Prod.fst).Nodup →
      (c, MResult.success v) ∈ results →
      lookupVal (mergeResults b results prop) c prop = some v) ∧
    (∀ (b : Beliefs) (d : ℚ) (c p : String),
      lookupVal (decayBeliefs b d) c p = (lookupVal b c p).map (· * d)) ∧
    (∀ (b : Beliefs) (t : ℚ) (c : String) (x : ℚ),
      (c, x) ∈ scoredOf b t ↔
        ∃ rec s bg : _, (c, rec) ∈ b ∧
          recGet rec "stability" = some s ∧
          recGet rec "bandgap" = some bg ∧ x = s - |bg - t|) ∧
    (∀ l : List (String × ℚ),
      ((sortDesc l).take 10).length ≤ 10 ∧
      (∀ p, p ∈ (sortDesc l).take 10 → p ∈ l) ∧
      (l.length ≤ 10 → ∀ p, (p ∈ (sortDesc l).take 10 ↔ p ∈ l))) :=
  ⟨fun b results prop c v hnd hin =>
      mergeResults_overwrite b results prop c v hnd hin,
    lookupVal_decay, scoredOf_mem_iff, take10_facts⟩

/-- Witness for the overwrite part of `c4_interpret_step` at a concrete
merge. -/
theorem c4_interpret_step_witness :
    lookupVal (mergeResults [] [("x", MResult.success 1)] "stability") "x"
      "stability" = some 1 :=
  c4_interpret_step.1 [] [("x", MResult.success 1)] "stability" "x" 1
    (by decide) (by with_unfolding_all decide)

/-- C4 counterexample: in a concrete run with a 12-candidate batch, a
constant oracle and no decay, the second INTERPRET event's
`updated_beliefs` has exactly 10 entries (`c01 … c10`), yet candidate
`c11`'s belief record at that step has both `stability` and `bandgap`
recorded — so "a candidate appears in `updated_beliefs` iff its record has
both entries" fails: the top-10 truncation drops fully observed
candidates. -/
theorem c4_counterexample :
    ((((Investigator.run (envOf candList12) consNoDecay ⟨2, 0⟩).1.get?
        7).map (fun e => (e.step, e.payload.updatedBeliefs.length,
          e.payload.updatedBeliefs.map Prod.fst))) =
      some (StepKind.INTERPRET, 10,
        ["c01", "c02", "c03", "c04", "c05", "c06", "c07", "c08", "c09",
          "c10"])) ∧
    ((lookupVal (beliefsFrom (envOf candList12) consNoDecay [] 0 2) "c11"
        "stability").isSome = true) ∧
    ((lookupVal (beliefsFrom (envOf candList12) consNoDecay [] 0 2) "c11"
        "bandgap").isSome = true) ∧
    "c11" ∉ ["c01", "c02", "c03", "c04", "c05", "c06", "c07", "c08",
      "c09", "c10"] := by
  have h1 := runLoop_cont (envOf candList12) consNoDecay
    (show 0 < 2 by decide) [] 0 (by with_unfolding_all decide)
  have h2 := runLoop_met (envOf candList12) consNoDecay
    (show 1 < 2 by decide) (iterOnce (envOf candList12) consNoDecay 0 []) 1
    (by with_unfolding_all decide)
  refine ⟨?_, ?_, ?_, ?_⟩
  · show ((runLoop (envOf candList12) consNoDecay ⟨2, 0⟩ [] 0).1.get?
        7).map _ = _
    rw [h1]
    dsimp only
    rw [h2]
    with_unfolding_all decide
  · with_unfolding_all decide
  · with_unfolding_all decide
  · decide

/-! ## C5 -/

/-- C5 counterexample: in a concrete one-iteration run, the EXECUTE
payload's `results` key holds an object whose keys are
`["property", "results"]` — the whole oracle response — not the
per-candidate outcome map keyed by the batch (`["x"]`) that the claim
describes. -/
theorem c5_counterexample :
    ((((Investigator.run (envOf ["x"]) consNoDecay ⟨1, 0⟩).1.get? 2).map
        (fun e => ((payloadJson e.payload).get "results").map JVal.keys)) =
      some (some ["property", "results"])) ∧
    ([("property" : String), "results"] ≠ (["x"] : List String)) := by
  constructor
  · show (((runLoop (envOf ["x"]) consNoDecay ⟨1, 0⟩ [] 0).1.get? 2).map
        (fun e => ((payloadJson e.payload).get "results").map JVal.keys))
      = _
    rw [runLoop_cont (envOf ["x"]) consNoDecay (show 0 < 1 by decide) [] 0
      (by with_unfolding_all decide)]
    dsimp only
    rw [runLoop_exhausted (envOf ["x"]) consNoDecay (by omega)]
    rfl
  · decide

/-- C5 (amended): every EXECUTE event's persisted payload has keys
`{tool, property, results}`, but the value under `results` is the full
oracle response `{property, results: {candidate: outcome}}`; the raw
per-candidate outcome map therefore sits one level deeper, under
`results.results`, keyed by the iteration's candidate batch. -/
theorem c5_execute_payload (env : RunEnv) (cons : Constraints) (m : Nat) :
    ∀ e ∈ (Investigator.run env cons ⟨m, 0⟩).1,
    e.step = StepKind.EXECUTE →
    ∃ i, e = execEventAt env i ∧
      (payloadJson e.payload).keys = ["tool", "property", "results"] ∧
      ((payloadJson e.payload).get "results" =
        some (oracleRespJson (env.oracle (env.propose i) (propAt i)))) ∧
      ((oracleRespJson (env.oracle (env.propose i) (propAt i))).get
          "results" =
        some (JVal.obj
          (((env.oracle (env.propose i) (propAt i)).results).map
            (fun cr => (cr.1, mresultJson cr.2))))) ∧
      ((JVal.obj (((env.oracle (env.propose i) (propAt i)).results).map
          (fun cr => (cr.1, mresultJson cr.2)))).keys =
        ((env.oracle (env.propose i) (propAt i)).results).map Prod.fst) := by
  intro e he hstep
  obtain ⟨k, _, hke⟩ := runLoop_exec_events env cons (m - 0) m 0
    (le_refl _) [] 0 e he hstep
  refine ⟨0 + k, by simpa using hke, ?_, ?_, ?_, ?_⟩
  · rw [hke]; rfl
  · rw [hke]; rfl
  · rfl
  · simp [JVal.keys, List.map_map]

/-- Witness for `c5_execute_payload` at a concrete one-iteration run. -/
theorem c5_execute_payload_witness :
    ∃ i, execEventAt (envOf ["x"]) 0 = execEventAt (envOf ["x"]) i ∧
      (payloadJson (execEventAt (envOf ["x"]) 0).payload).keys =
        ["tool", "property", "results"] ∧
      ((payloadJson (execEventAt (envOf ["x"]) 0).payload).get "results" =
        some (oracleRespJson ((envOf ["x"]).oracle
          ((envOf ["x"]).propose i) (propAt i)))) ∧
      ((oracleRespJson ((envOf ["x"]).oracle ((envOf ["x"]).propose i)
          (propAt i))).get "results" =
        some (JVal.obj
          ((((envOf ["x"]).oracle ((envOf ["x"]).propose i)
            (propAt i)).results).map
            (fun cr => (cr.1, mresultJson cr.2))))) ∧
      ((JVal.obj ((((envOf ["x"]).oracle ((envOf ["x"]).propose i)
          (propAt i)).results).map
          (fun cr => (cr.1, mresultJson cr.2)))).keys =
        (((envOf ["x"]).oracle ((envOf ["x"]).propose i)
          (propAt i)).results).map Prod.fst) := by
  refine c5_execute_payload (envOf ["x"]) consNoDecay 1
    (execEventAt (envOf ["x"]) 0) ?_ rfl
  show _ ∈ (runLoop (envOf ["x"]) consNoDecay ⟨1, 0⟩ [] 0).1
  rw [runLoop_cont (envOf ["x"]) consNoDecay (show 0 < 1 by decide) [] 0
    (by with_unfolding_all decide)]
  dsimp only
  rw [runLoop_exhausted (envOf ["x"]) consNoDecay (by omega)]
  with_unfolding_all decide

/-! ## C8 -/

theorem queryCandidate_fail (O : SyntheticOracle) (D : Draws)
    (pyhash : Int → String → Int) (prop c : String)
    (hfail : O.fail_prob = 1)
    (hr1 : ∀ h, 0 ≤ D.r1 h ∧ D.r1 h < 1) :
    queryCandidate O D pyhash prop c =
      MResult.failure "synthetic_failure" := by
  unfold queryCandidate
  rw [hfail]
  rw [if_pos (hr1 (rngSeedFor pyhash O.seed c)).2]

theorem mergeResults_allfail (p : String) :
    ∀ (rs : List (String × MResult)) (b : Beliefs),
    (∀ cr ∈ rs, cr.2 = MResult.failure "synthetic_failure") →
    mergeResults b rs p = b := by
  intro rs
  induction rs with
  | nil => intro b _; rfl
  | cons hd tl ih =>
      intro b hall
      have hhd : hd.2 = MResult.failure "synthetic_failure" :=
        hall hd (List.mem_cons_self hd tl)
      have hstep : mergeResults b (hd :: tl) p =
          mergeResults (match hd.2 with
            | MResult.failure _ => b
            | MResult.success v => beliefSet b hd.1 p v) tl p := rfl
      rw [hstep, hhd]
      exact ih b (fun cr hcr => hall cr (List.mem_cons_of_mem hd hcr))

/-- C8: with `fail_prob = 1.0` (and the real bound `0 ≤ random() < 1` on
the failure draw), every per-candidate result in every EXECUTE payload is
`{ok: false, error: "synthetic_failure"}`, the belief state stays empty
through the whole run, and the run terminates with reason
`budget_exhausted`. -/
theorem c8_all_fail (O : SyntheticOracle) (D : Draws)
    (pyhash : Int → String → Int) (env : RunEnv) (cons : Constraints)
    (m : Nat) (hfail : O.fail_prob = 1)
    (hr1 : ∀ h, 0 ≤ D.r1 h ∧ D.r1 h < 1)
    (hora : env.oracle =
      fun cands prop => O.queryProp D pyhash cands prop) :
    (∀ e ∈ (Investigator.run env cons ⟨m, 0⟩).1,
      e.step = StepKind.EXECUTE →
      ∀ cr ∈ e.payload.execResults,
        cr.2 = MResult.failure "synthetic_failure") ∧
    (∀ n, beliefsFrom env cons [] 0 n = []) ∧
    (Investigator.run env cons ⟨m, 0⟩).2.2 = "budget_exhausted" := by
  have hallres : ∀ (cands : List String) (prop : String),
      ∀ cr ∈ (env.oracle cands prop).results,
        cr.2 = MResult.failure "synthetic_failure" := by
    intro cands prop cr hcr
    rw [hora] at hcr
    simp only [SyntheticOracle.queryProp, List.mem_map] at hcr
    obtain ⟨a, _, heq⟩ := hcr
    rw [← heq]
    exact queryCandidate_fail O D pyhash prop a hfail hr1
  have hempty : ∀ n, beliefsFrom env cons [] 0 n = [] := by
    intro n
    induction n with
    | zero => rfl
    | succ k ih =>
        show iterOnce env cons (0 + k) (beliefsFrom env cons [] 0 k) = []
        rw [ih]
        unfold iterOnce
        rw [mergeResults_allfail _ _ _ (hallres _ _)]
        rfl
  refine ⟨?_, hempty, ?_⟩
  · intro e he hstep cr hcr
    obtain ⟨k, _, hke⟩ := runLoop_exec_events env cons (m - 0) m 0
      (le_refl _) [] 0 e he hstep
    rw [hke] at hcr
    exact hallres _ _ cr hcr
  · rcases runLoop_reason_cases env cons (m - 0) m 0 (le_refl _) [] 0
      with hcm | hbe
    · exfalso
      obtain ⟨k, -, hmk⟩ := (runLoop_stop_iff env cons (m - 0) m 0
        (le_refl _) [] 0).mp hcm
      rw [hempty (k + 1)] at hmk
      simp [meetsConstraints] at hmk
    · exact hbe

/-- A run environment wired to the synthetic oracle with `fail_prob = 1`. -/
def envSynFail : RunEnv :=
  { run_id := "r", hypId := fun _ => "h", designId := fun _ => "d",
    interpId := fun _ => "i", propose := fun _ => ["x"],
    oracle := fun cands prop =>
      SyntheticOracle.queryProp ⟨0, 1, 0⟩ draws0 (fun _ _ => 0)
        cands prop }

/-- Witness for `c8_all_fail` at a concrete configuration. -/
theorem c8_all_fail_witness :
    (∀ n, beliefsFrom envSynFail consNoDecay [] 0 n = []) ∧
    (Investigator.run envSynFail consNoDecay ⟨1, 0⟩).2.2 =
      "budget_exhausted" :=
  ⟨(c8_all_fail ⟨0, 1, 0⟩ draws0 (fun _ _ => 0) envSynFail consNoDecay 1
      rfl (fun h => ⟨le_refl 0, show (0 : ℚ) < 1 by norm_num⟩) rfl).2.1,
    (c8_all_fail ⟨0, 1, 0⟩ draws0 (fun _ _ => 0) envSynFail consNoDecay 1
      rfl (fun h => ⟨le_refl 0, show (0 : ℚ) < 1 by norm_num⟩) rfl).2.2⟩

/-! ## C10 -/

theorem recGet_setProp (p q : String) (v : ℚ) :
    ∀ rec : BeliefRec,
    recGet (setProp rec p v) q = if q = p then some v else recGet rec q := by
  intro rec
  induction rec with
  | nil =>
      by_cases h : q = p
      · simp [setProp, recGet, h]
      · have h' : ¬ p = q := fun hp => h hp.symm
        simp [setProp, recGet, h, h']
  | cons kv rest ih =>
      by_cases hk : kv.1 = p
      · by_cases h : q = p
        · simp [setProp, hk, recGet, h]
        · have h' : ¬ p = q := fun hp => h hp.symm
          have hkq : ¬ kv.1 = q := by rw [hk]; exact h'
          simp [setProp, hk, recGet, h, h', hkq]
      · by_cases hq : kv.1 = q
        · have h : ¬ q = p := by rw [← hq]; exact hk
          simp [setProp, hk, recGet, hq, h]
        · simp [setProp, hk, recGet, hq, ih]

theorem beliefSet_entry (c' p : String) (v : ℚ) :
    ∀ (b : Beliefs) (c : String) (rec : BeliefRec), (c, rec) ∈ b →
    ∃ rec', (c, rec') ∈ beliefSet b c' p v ∧
      ∀ q, (recGet rec q).isSome = true →
        (recGet rec' q).isSome = true := by
  intro b
  induction b with
  | nil => intro c rec hin; simp at hin
  | cons cr rest ih =>
      intro c rec hin
      by_cases hcr : cr.1 = c'
      · simp only [beliefSet, if_pos hcr]
        rcases List.mem_cons.mp hin with heq | hin'
        · have hc : c = c' := by rw [← hcr, ← heq]
          have hrec : rec = cr.2 := by rw [← heq]
          refine ⟨setProp cr.2 p v, ?_, ?_⟩
          · rw [hc]
            exact List.mem_cons_self _ _
          · intro q hq
            rw [recGet_setProp]
            by_cases h : q = p
            · simp [h]
            · rw [if_neg h, ← hrec]
              exact hq
        · exact ⟨rec, List.mem_cons_of_mem _ hin', fun q hq => hq⟩
      · simp only [beliefSet, if_neg hcr]
        rcases List.mem_cons.mp hin with heq | hin'
        · refine ⟨rec, ?_, fun q hq => hq⟩
          rw [heq]
          exact List.mem_cons_self _ _
        · obtain ⟨rec', hin'', himp⟩ := ih c rec hin'
          exact ⟨rec', List.mem_cons_of_mem _ hin'', himp⟩

theorem mergeResults_entry (p : String) :
    ∀ (rs : List (String × MResult)) (b : Beliefs) (c : String)
      (rec : BeliefRec), (c, rec) ∈ b →
    ∃ rec', (c, rec') ∈ mergeResults b rs p ∧
      ∀ q, (recGet rec q).isSome = true →
        (recGet rec' q).isSome = true := by
  intro rs
  induction rs with
  | nil => intro b c rec hin; exact ⟨rec, hin, fun q hq => hq⟩
  | cons hd tl ih =>
      intro b c rec hin
      have hstep : mergeResults b (hd :: tl) p =
          mergeResults (match hd.2 with
            | MResult.failure _ => b
            | MResult.success v => beliefSet b hd.1 p v) tl p := rfl
      rw [hstep]
      rcases hr : hd.2 with e | v
      · exact ih b c rec hin
      · obtain ⟨rec1, hin1, himp1⟩ := beliefSet_entry hd.1 p v b c rec hin
        obtain ⟨rec', hin', himp'⟩ := ih (beliefSet b hd.1 p v) c rec1 hin1
        exact ⟨rec', hin', fun q hq => himp' q (himp1 q hq)⟩

theorem decay_entry (d : ℚ) (b : Beliefs) (c : String) (rec : BeliefRec)
    (hin : (c, rec) ∈ b) :
    ∃ rec', (c, rec') ∈ decayBeliefs b d ∧
      ∀ q, (recGet rec q).isSome = true →
        (recGet rec' q).isSome = true := by
  refine ⟨rec.map (fun kv => (kv.1, kv.2 * d)), ?_, ?_⟩
  · unfold decayBeliefs
    exact List.mem_map.mpr ⟨(c, rec), hin, rfl⟩
  · intro q hq
    rw [recGet_mapval]
    simpa using hq

theorem iterOnce_entry (env : RunEnv) (cons : Constraints) (k : Nat)
    (b : Beliefs) (c : String) (rec : BeliefRec) (hin : (c, rec) ∈ b) :
    ∃ rec', (c, rec') ∈ iterOnce env cons k b ∧
      ∀ q, (recGet rec q).isSome = true →
        (recGet rec' q).isSome = true := by
  obtain ⟨rec1, hin1, himp1⟩ := mergeResults_entry (propAt k)
    (env.oracle (env.propose k) (propAt k)).results b c rec hin
  obtain ⟨rec', hin', himp'⟩ := decay_entry cons.belief_decay _ c rec1 hin1
  exact ⟨rec', hin', fun q hq => himp' q (himp1 q hq)⟩

theorem beliefsFrom_entry_mono (env : RunEnv) (cons : Constraints)
    (b : Beliefs) (s : Nat) (c : String) (rec : BeliefRec) {i j : Nat}
    (hij : i ≤ j) (hin : (c, rec) ∈ beliefsFrom env cons b s i) :
    ∃ rec', (c, rec') ∈ beliefsFrom env cons b s j ∧
      ∀ q, (recGet rec q).isSome = true →
        (recGet rec' q).isSome = true := by
  induction j, hij using Nat.le_induction with
  | base => exact ⟨rec, hin, fun q hq => hq⟩
  | succ n hn ih =>
      obtain ⟨rec1, hin1, himp1⟩ := ih
      obtain ⟨rec', hin', himp'⟩ := iterOnce_entry env cons (s + n)
        (beliefsFrom env cons b s n) c rec1 hin1
      exact ⟨rec', hin', fun q hq => himp' q (himp1 q hq)⟩

/-- C10: within a run the belief record only grows: an entry present for a
candidate/property at iteration `i` is still present at every later
iteration `j` (merging only adds or overwrites, decay rescales in place),
and consequently a candidate scored at iteration `i` is still scored at
iteration `j` — the sets of candidates eligible for scoring and for the
stop check are non-decreasing. -/
theorem c10_beliefs_monotone (env : RunEnv) (cons : Constraints)
    (b : Beliefs) (s : Nat) (c p : String) {i j : Nat} (hij : i ≤ j) :
    ((∃ rec, (c, rec) ∈ beliefsFrom env cons b s i ∧
        (recGet rec p).isSome = true) →
      ∃ rec', (c, rec') ∈ beliefsFrom env cons b s j ∧
        (recGet rec' p).isSome = true) ∧
    (∀ t : ℚ, (∃ x, (c, x) ∈ scoredOf (beliefsFrom env cons b s i) t) →
      ∃ y, (c, y) ∈ scoredOf (beliefsFrom env cons b s j) t) := by
  constructor
  · rintro ⟨rec, hin, hp⟩
    obtain ⟨rec', hin', himp⟩ :=
      beliefsFrom_entry_mono env cons b s c rec hij hin
    exact ⟨rec', hin', himp p hp⟩
  · rintro t ⟨x, hx⟩
    obtain ⟨rec, sv, bg, hin, h1, h2, rfl⟩ :=
      (scoredOf_mem_iff _ t c x).mp hx
    obtain ⟨rec', hin', himp⟩ :=
      beliefsFrom_entry_mono env cons b s c rec hij hin
    have hs' : (recGet rec' "stability").isSome = true :=
      himp "stability" (by rw [h1]; rfl)
    have hb' : (recGet rec' "bandgap").isSome = true :=
      himp "bandgap" (by rw [h2]; rfl)
    obtain ⟨sv', hsv'⟩ := Option.isSome_iff_exists.mp hs'
    obtain ⟨bg', hbg'⟩ := Option.isSome_iff_exists.mp hb'
    exact ⟨sv' - |bg' - t|,
      (scoredOf_mem_iff _ t c _).mpr ⟨rec', sv', bg', hin', hsv', hbg',
        rfl⟩⟩

/-- Witness for `c10_beliefs_monotone` at concrete iterations `1 ≤ 2` of a
concrete run. -/
theorem c10_beliefs_monotone_witness :
    ((∃ rec, ("x", rec) ∈ beliefsFrom (envOf ["x"]) consNoDecay [] 0 1 ∧
        (recGet rec "stability").isSome = true) →
      ∃ rec', ("x", rec') ∈ beliefsFrom (envOf ["x"]) consNoDecay [] 0 2 ∧
        (recGet rec' "stability").isSome = true) ∧
    (∀ t : ℚ, (∃ x, ("x", x) ∈
        scoredOf (beliefsFrom (envOf ["x"]) consNoDecay [] 0 1) t) →
      ∃ y, ("x", y) ∈
        scoredOf (beliefsFrom (envOf ["x"]) consNoDecay [] 0 2) t) :=
  c10_beliefs_monotone (envOf ["x"]) consNoDecay [] 0 "x" "stability"
    (by omega)

/-- Witness for `c2_termination`: at a concrete configuration the
constraint check succeeds at iteration 1, so the stop-iff direction yields
reason `constraints_met`. -/
theorem c2_termination_witness :
    (Investigator.run (envOf ["b", "a"]) consNoDecay ⟨2, 0⟩).2.2 =
      "constraints_met" :=
  ((c2_termination (envOf ["b", "a"]) consNoDecay 2).2.2.2.1).mpr
    ⟨1, by omega, by with_unfolding_all decide⟩
